import Mathlib

/-!
Shallow embedding of the LFU caching decorator in
`src/homework_1/caching_lfu.py` (`lfu_cache` / `wrapper`), together with
proofs of the specified properties.

Python dicts preserve insertion order, and the decorator's behaviour
(in particular the eviction tie-break through `min(usage, key=usage.get)`)
depends on that order, so both dicts (`cache` and `usage`) are modelled as
association lists in insertion order:
  * assignment to a present key updates the value in place,
  * assignment to an absent key appends at the end,
  * `pop` removes the entry,
  * `min(usage, key=usage.get)` returns the earliest key attaining the
    minimal value.
-/

namespace CachingLFU

variable {K V E : Type} [DecidableEq K]

/-- Python `d[k]` lookup on an insertion-ordered dict (as an association
list): the value at key `k`, if present. -/
def dlookup : List (K × V) → K → Option V
  | [], _ => none
  | (a, b) :: d, k => if a = k then some b else dlookup d k

/-- Python `d[k] = v` on an insertion-ordered dict: update in place when the
key is present, append at the end otherwise. -/
def dset : List (K × V) → K → V → List (K × V)
  | [], k, v => [(k, v)]
  | (a, b) :: d, k, v => if a = k then (a, v) :: d else (a, b) :: dset d k v

/-- Python `d.pop(k)` on an insertion-ordered dict: drop the entry at key
`k`.  (The source calls `pop` only on a key returned by `min` over the same
dict, so the key is always present there.) -/
def dpop : List (K × V) → K → List (K × V)
  | [], _ => []
  | (a, b) :: d, k => if a = k then d else (a, b) :: dpop d k

/-- Fold of Python's `min`: starting from the first item as the current
best, a later item replaces the best only when its value is strictly
smaller, so ties keep the earliest item. -/
def pyminGo (acc : K × Nat) : List (K × Nat) → K × Nat
  | [] => acc
  | p :: rest => if p.2 < acc.2 then pyminGo p rest else pyminGo acc rest

/-- Python `min(usage, key=usage.get)` (line 55 of the source), returned as
the full item: iterating the dict in insertion order, the earliest key with
the minimal usage value; `none` models the `ValueError` that `min` raises on
an empty dict. -/
def pymin : List (K × Nat) → Option (K × Nat)
  | [] => none
  | p :: rest => some (pyminGo p rest)

/-- The decorator's closure state: the `max_limit` argument of `lfu_cache`
and the `cache` and `usage` dicts created at decoration time (source lines
32 and 33). -/
structure LFU (K V : Type) where
  max_limit : Int
  cache : List (K × V)
  usage : List (K × Nat)
deriving DecidableEq

/-- Outcome of one call of the wrapped function, as seen by the caller. -/
inductive CallOutcome (E V : Type) where
  /-- The call returned a value (from the cache or freshly computed). -/
  | ok (v : V)
  /-- The wrapped computation `func(*args, **kwargs)` raised `e`, which
  propagates unchanged (source line 52). -/
  | compError (e : E)
  /-- `usage[key] += 1` raised `KeyError` because the key was in `cache`
  but not in `usage` (source line 50; unreachable from a valid state). -/
  | keyError
  /-- `min(usage, key=usage.get)` raised `ValueError: min() arg is an
  empty sequence` (source line 55 with an empty `usage`). -/
  | valueError
  /-- Hashing the key raised `TypeError` because an argument is unhashable
  (source line 49, at `key in cache`). -/
  | typeError
deriving DecidableEq

/-- One call of `wrapper` (source lines 48-60), after the key has been
built: given the current state, the key, and the outcome the wrapped
computation would produce if invoked, return the call outcome, the new
state, and whether the wrapped computation was actually invoked.

Line by line:
  49: `if key in cache:` — the `dlookup s.cache k` match;
  50: `usage[key] += 1` — `dset s.usage k (u + 1)` (`keyError` if absent);
  51: `return cache[key]` — the stored value `v`;
  52: `result = func(*args, **kwargs)` — `fres` consumed, invoked := true;
  53: `if len(cache) >= max_limit:`;
  55: `least_used_key = min(usage, key=usage.get)` — `pymin s.usage`;
  56-57: `cache.pop(...)`, `usage.pop(...)` — `dpop`;
  58-59: `cache[key] = result`, `usage[key] = 1` — `dset`;
  60: `return result`. -/
def wrapper (s : LFU K V) (k : K) (fres : Except E V) :
    CallOutcome E V × LFU K V × Bool :=
  match dlookup s.cache k with
  | some v =>
      match dlookup s.usage k with
      | some u => (.ok v, ⟨s.max_limit, s.cache, dset s.usage k (u + 1)⟩, false)
      | none => (.keyError, s, false)
  | none =>
      match fres with
      | .error e => (.compError e, s, true)
      | .ok result =>
          if (s.cache.length : Int) ≥ s.max_limit then
            match pymin s.usage with
            | none => (.valueError, s, true)
            | some lu =>
                (.ok result,
                  ⟨s.max_limit, dset (dpop s.cache lu.1) k result,
                    dset (dpop s.usage lu.1) k 1⟩, true)
          else
            (.ok result,
              ⟨s.max_limit, dset s.cache k result, dset s.usage k 1⟩, true)

/-- Errors that constructing the cache could raise.  The source's
`lfu_cache` (line 17) performs no validation at all, so the constructor
below never actually returns this; the type exists so that the spec's
claimed construction-time failure is statable. -/
inductive ConfigError where
  | invalidConfiguration
deriving DecidableEq

/-- `lfu_cache(max_limit)` (source lines 17-33): creates the empty `cache`
and `usage` dicts and returns the decorator.  The source performs no
validation of `max_limit`, so construction succeeds for every integer. -/
def lfu_cache (K V : Type) (max_limit : Int) : Except ConfigError (LFU K V) :=
  .ok ⟨max_limit, [], []⟩

/-- Run a sequence of calls: each list element is the key of the call and
the outcome the wrapped computation would produce for it. -/
def runCalls (s : LFU K V) : List (K × Except E V) → LFU K V
  | [] => s
  | c :: rest => runCalls (wrapper s c.1 c.2).2.1 rest

/-- A small universe of Python argument values, enough to express
hashability: ints and strings are hashable, tuples are hashable exactly
when all their elements are, lists are mutable and never hashable. -/
inductive PyVal where
  | int (n : Int)
  | str (s : String)
  | tuple (xs : List PyVal)
  | list (xs : List PyVal)

mutual

/-- Boolean equality on Python values (used to decide `=` below). -/
def pyBeq : PyVal → PyVal → Bool
  | .int m, .int n => m == n
  | .str a, .str b => a == b
  | .tuple xs, .tuple ys => pyBeqList xs ys
  | .list xs, .list ys => pyBeqList xs ys
  | _, _ => false

/-- Boolean equality on lists of Python values. -/
def pyBeqList : List PyVal → List PyVal → Bool
  | [], [] => true
  | x :: xs, y :: ys => pyBeq x y && pyBeqList xs ys
  | _, _ => false

end

mutual

/-- Whether `hash(v)` succeeds for a Python value `v`. -/
def pyHashable : PyVal → Bool
  | .int _ => true
  | .str _ => true
  | .tuple xs => pyHashableList xs
  | .list _ => false

/-- Whether every value in a list is hashable. -/
def pyHashableList : List PyVal → Bool
  | [] => true
  | x :: xs => pyHashable x && pyHashableList xs

end

mutual

theorem pyBeq_iff : (a b : PyVal) → (pyBeq a b = true ↔ a = b)
  | .int _, .int _ => by simp [pyBeq]
  | .int _, .str _ => by simp [pyBeq]
  | .int _, .tuple _ => by simp [pyBeq]
  | .int _, .list _ => by simp [pyBeq]
  | .str _, .int _ => by simp [pyBeq]
  | .str _, .str _ => by simp [pyBeq]
  | .str _, .tuple _ => by simp [pyBeq]
  | .str _, .list _ => by simp [pyBeq]
  | .tuple _, .int _ => by simp [pyBeq]
  | .tuple _, .str _ => by simp [pyBeq]
  | .tuple xs, .tuple ys => by simp [pyBeq, pyBeqList_iff xs ys]
  | .tuple _, .list _ => by simp [pyBeq]
  | .list _, .int _ => by simp [pyBeq]
  | .list _, .str _ => by simp [pyBeq]
  | .list _, .tuple _ => by simp [pyBeq]
  | .list xs, .list ys => by simp [pyBeq, pyBeqList_iff xs ys]

theorem pyBeqList_iff : (xs ys : List PyVal) → (pyBeqList xs ys = true ↔ xs = ys)
  | [], [] => by simp [pyBeqList]
  | [], _ :: _ => by simp [pyBeqList]
  | _ :: _, [] => by simp [pyBeqList]
  | x :: xs, y :: ys => by
      simp [pyBeqList, pyBeq_iff x y, pyBeqList_iff xs ys]

end

instance : DecidableEq PyVal := fun a b => decidable_of_iff _ (pyBeq_iff a b)

/-- The cache key of a call: `(args, tuple(sorted(kwargs.items())))`
(source line 48).  Positional arguments keep call order; keyword items are
sorted by name (keyword names are distinct, so the name order determines
the sorted order completely). -/
def makeKey (args : List PyVal) (kwargs : List (String × PyVal)) :
    List PyVal × List (String × PyVal) :=
  (args, List.insertionSort (fun a b => a.1 ≤ b.1) kwargs)

/-- Whether the built key hashes: `key in cache` (source line 49) hashes
the key tuple, which hashes the positional arguments and the keyword
items (names are strings, always hashable). -/
def keyHashable (key : List PyVal × List (String × PyVal)) : Bool :=
  key.1.all pyHashable && key.2.all fun p => pyHashable p.2

/-- One call of `wrapper` including key construction (source lines 48-60):
build the key from the arguments; if it is unhashable, `key in cache`
raises `TypeError` before the wrapped computation runs and the state is
untouched; otherwise proceed as `wrapper`.  (An unhashable key can never
be resident, so testing hashability before the lookup is equivalent to
failing inside it.) -/
def wrapperCall (s : LFU (List PyVal × List (String × PyVal)) V)
    (args : List PyVal) (kwargs : List (String × PyVal))
    (fres : Except E V) :
    CallOutcome E V × LFU (List PyVal × List (String × PyVal)) V × Bool :=
  let key := makeKey args kwargs
  if keyHashable key then wrapper s key fres
  else (.typeError, s, false)

/-- Well-formedness of the two dicts: `cache` and `usage` hold exactly the
same keys in the same insertion order, and no key occurs twice (both are
automatic for Python dicts updated in lockstep, and they make the value
map and the frequency map a bijection on resident keys). -/
def KeysOK (s : LFU K V) : Prop :=
  s.cache.map Prod.fst = s.usage.map Prod.fst ∧ (s.cache.map Prod.fst).Nodup

/-! ### Lemmas about the dict model -/

theorem dlookup_eq_none_iff (d : List (K × V)) (k : K) :
    dlookup d k = none ↔ k ∉ d.map Prod.fst := by
  induction d with
  | nil => simp [dlookup]
  | cons p d ih =>
    obtain ⟨a, b⟩ := p
    by_cases h : a = k <;> simp [dlookup, h, ih, Ne.symm]

theorem dlookup_dset_self (d : List (K × V)) (k : K) (v : V) :
    dlookup (dset d k v) k = some v := by
  induction d with
  | nil => simp [dset, dlookup]
  | cons p d ih =>
    obtain ⟨a, b⟩ := p
    by_cases h : a = k <;> simp [dset, dlookup, h, ih]

theorem dlookup_dset_ne (d : List (K × V)) {k k' : K} (v : V) (h : k ≠ k') :
    dlookup (dset d k' v) k = dlookup d k := by
  have h' : k' ≠ k := Ne.symm h
  induction d with
  | nil => simp [dset, dlookup, h']
  | cons p d ih =>
    obtain ⟨a, b⟩ := p
    by_cases ha : a = k'
    · subst ha
      simp [dset, dlookup, h']
    · simp [dset, dlookup, ha, ih]

theorem dlookup_dpop_ne (d : List (K × V)) {k k' : K} (h : k ≠ k') :
    dlookup (dpop d k') k = dlookup d k := by
  have h' : k' ≠ k := Ne.symm h
  induction d with
  | nil => simp [dpop]
  | cons p d ih =>
    obtain ⟨a, b⟩ := p
    by_cases ha : a = k'
    · subst ha
      simp [dpop, dlookup, h']
    · simp [dpop, dlookup, ha, ih]

theorem map_fst_dset_of_mem {d : List (K × V)} {k : K} (v : V)
    (h : k ∈ d.map Prod.fst) :
    (dset d k v).map Prod.fst = d.map Prod.fst := by
  induction d with
  | nil => simp at h
  | cons p d ih =>
    obtain ⟨a, b⟩ := p
    by_cases ha : a = k
    · simp [dset, ha]
    · simp only [List.map_cons, List.mem_cons] at h
      rcases h with h | h

      · exact absurd h.symm ha
      · simp [dset, ha, ih h]

theorem map_fst_dset_of_not_mem {d : List (K × V)} {k : K} (v : V)
    (h : k ∉ d.map Prod.fst) :
    (dset d k v).map Prod.fst = d.map Prod.fst ++ [k] := by
  induction d with
  | nil => simp [dset]
  | cons p d ih =>
    obtain ⟨a, b⟩ := p
    simp only [List.map_cons, List.mem_cons] at h
    push_neg at h
    have ha : a ≠ k := fun hh => h.1 hh.symm
    simp [dset, ha, ih h.2]

theorem map_fst_dpop (d : List (K × V)) (k : K) :
    (dpop d k).map Prod.fst = (d.map Prod.fst).erase k := by
  induction d with
  | nil => simp [dpop]
  | cons p d ih =>
    obtain ⟨a, b⟩ := p
    by_cases ha : a = k
    · subst ha
      simp [dpop, List.erase_cons]
    · simp [dpop, List.erase_cons, ha, ih]

/-! ### Lemmas about `pymin` -/

/-- The fold of Python's `min` returns an element of its input whose value
is a global minimum and strictly below the value of everything before it
(ties keep the earliest element). -/
theorem pyminGo_spec (l : List (K × Nat)) : ∀ acc : K × Nat,
    ∃ l₁ l₂ : List (K × Nat),
      acc :: l = l₁ ++ pyminGo acc l :: l₂ ∧
      (∀ p ∈ acc :: l, (pyminGo acc l).2 ≤ p.2) ∧
      (∀ p ∈ l₁, (pyminGo acc l).2 < p.2) := by
  induction l with
  | nil =>
    intro acc
    exact ⟨[], [], by simp [pyminGo], by simp [pyminGo], by simp⟩
  | cons p rest ih =>
    intro acc
    by_cases hp : p.2 < acc.2
    · obtain ⟨l₁, l₂, heq, hmin, hpre⟩ := ih p
      have hgo : pyminGo acc (p :: rest) = pyminGo p rest := by
        simp [pyminGo, hp]
      refine ⟨acc :: l₁, l₂, ?_, ?_, ?_⟩
      · rw [hgo]
        simpa using heq
      · intro q hq
        rw [hgo]
        rcases List.mem_cons.mp hq with hq | hq
        · subst hq
          exact le_of_lt (lt_of_le_of_lt (hmin p (by simp)) hp)
        · exact hmin q hq
      · intro q hq
        rw [hgo]
        rcases List.mem_cons.mp hq with hq | hq
        · subst hq
          exact lt_of_le_of_lt (hmin p (by simp)) hp
        · exact hpre q hq
    · have hle : acc.2 ≤ p.2 := le_of_not_lt hp
      have hgo : pyminGo acc (p :: rest) = pyminGo acc rest := by
        simp [pyminGo, hp]
      obtain ⟨l₁, l₂, heq, hmin, hpre⟩ := ih acc
      rw [hgo]
      match l₁, heq, hpre with
      | [], heq, hpre =>
        have hacc : pyminGo acc rest = acc := by
          simpa using (congrArg (fun l => l.head?) heq).symm
        refine ⟨[], p :: rest, by simp [hacc], ?_, by simp⟩
        intro q hq
        rcases List.mem_cons.mp hq with hq | hq
        · subst hq
          exact le_of_eq (congrArg Prod.snd hacc)
        · rcases List.mem_cons.mp hq with hq | hq
          · subst hq
            exact le_trans (le_of_eq (congrArg Prod.snd hacc)) hle
          · exact hmin q (by simp [hq])
      | q :: t, heq, hpre =>
        have hq : q = acc := by
          simpa using (congrArg (fun l => l.head?) heq).symm
        have hltacc : (pyminGo acc rest).2 < acc.2 := by
          have h1 := hpre q (by simp)
          rwa [hq] at h1
        have hrest : rest = t ++ pyminGo acc rest :: l₂ := by
          simpa using congrArg (fun l => l.tail) heq
        refine ⟨acc :: p :: t, l₂, ?_, ?_, ?_⟩
        · conv_lhs => rw [hrest]
          simp
        · intro x hx
          rcases List.mem_cons.mp hx with hx | hx
          · subst hx; exact le_of_lt hltacc
          · rcases List.mem_cons.mp hx with hx | hx
            · subst hx; exact le_of_lt (lt_of_lt_of_le hltacc hle)
            · exact hmin x (by simp [hx])
        · intro x hx
          rcases List.mem_cons.mp hx with hx | hx
          · subst hx; exact hltacc
          · rcases List.mem_cons.mp hx with hx | hx
            · subst hx; exact lt_of_lt_of_le hltacc hle
            · exact hpre x (by simp [hx])

/-- `min(usage, key=usage.get)` on a nonempty dict returns the earliest
item attaining the minimal value. -/
theorem pymin_spec (u : List (K × Nat)) (hne : u ≠ []) :
    ∃ lu : K × Nat, ∃ l₁ l₂ : List (K × Nat),
      pymin u = some lu ∧
      u = l₁ ++ lu :: l₂ ∧
      (∀ p ∈ u, lu.2 ≤ p.2) ∧
      (∀ p ∈ l₁, lu.2 < p.2) := by
  match u, hne with
  | p :: rest, _ =>
    obtain ⟨l₁, l₂, heq, hmin, hpre⟩ := pyminGo_spec rest p
    exact ⟨pyminGo p rest, l₁, l₂, rfl, heq, fun q hq => hmin q hq, hpre⟩

theorem pymin_mem {u : List (K × Nat)} {lu : K × Nat}
    (h : pymin u = some lu) : lu ∈ u := by
  match u, h with
  | p :: rest, h =>
    obtain ⟨l₁, l₂, heq, _, _⟩ := pyminGo_spec rest p
    have hlu : pyminGo p rest = lu := by
      simpa [pymin] using h
    rw [← hlu, heq]
    simp

theorem mem_of_dlookup_eq_some {d : List (K × V)} {k : K} {v : V}
    (h : dlookup d k = some v) : k ∈ d.map Prod.fst := by
  by_contra hmem
  rw [(dlookup_eq_none_iff d k).mpr hmem] at h
  exact Option.noConfusion h

/-! ### Branch equations for `wrapper` -/

theorem wrapper_hit {s : LFU K V} {k : K} {v : V} {u : Nat} (fres : Except E V)
    (hc : dlookup s.cache k = some v) (hu : dlookup s.usage k = some u) :
    wrapper s k fres =
      (.ok v, ⟨s.max_limit, s.cache, dset s.usage k (u + 1)⟩, false) := by
  unfold wrapper
  rw [hc, hu]

theorem wrapper_hit_keyError {s : LFU K V} {k : K} {v : V} (fres : Except E V)
    (hc : dlookup s.cache k = some v) (hu : dlookup s.usage k = none) :
    wrapper s k fres = (.keyError, s, false) := by
  unfold wrapper
  rw [hc, hu]

theorem wrapper_miss_error {s : LFU K V} {k : K} (e : E)
    (hc : dlookup s.cache k = none) :
    wrapper s k (.error e) = (.compError e, s, true) := by
  unfold wrapper
  rw [hc]

theorem wrapper_miss_room {s : LFU K V} {k : K} (r : V)
    (hc : dlookup s.cache k = none)
    (hcap : ¬ (s.cache.length : Int) ≥ s.max_limit) :
    wrapper s k (Except.ok r : Except E V) =
      (.ok r, ⟨s.max_limit, dset s.cache k r, dset s.usage k 1⟩, true) := by
  unfold wrapper
  rw [hc]
  simp only [if_neg hcap]

theorem wrapper_miss_evict {s : LFU K V} {k : K} {lu : K × Nat} (r : V)
    (hc : dlookup s.cache k = none)
    (hcap : (s.cache.length : Int) ≥ s.max_limit)
    (hm : pymin s.usage = some lu) :
    wrapper s k (Except.ok r : Except E V) =
      (.ok r, ⟨s.max_limit, dset (dpop s.cache lu.1) k r,
        dset (dpop s.usage lu.1) k 1⟩, true) := by
  unfold wrapper
  rw [hc]
  simp only [if_pos hcap]
  rw [hm]

theorem wrapper_miss_full_empty {s : LFU K V} {k : K} (r : V)
    (hc : dlookup s.cache k = none)
    (hcap : (s.cache.length : Int) ≥ s.max_limit)
    (hm : pymin s.usage = none) :
    wrapper s k (Except.ok r : Except E V) = (.valueError, s, true) := by
  unfold wrapper
  rw [hc]
  simp only [if_pos hcap]
  rw [hm]

/-- The `max_limit` captured at decoration time is never mutated by a
call (spec invariant I4). -/
theorem step_max_limit (s : LFU K V) (k : K) (fres : Except E V) :
    ((wrapper s k fres).2.1).max_limit = s.max_limit := by
  cases hc : dlookup s.cache k with
  | some v =>
    cases hu : dlookup s.usage k with
    | some u => rw [wrapper_hit fres hc hu]
    | none => rw [wrapper_hit_keyError fres hc hu]
  | none =>
    cases fres with
    | error e => rw [wrapper_miss_error e hc]
    | ok r =>
      by_cases hcap : (s.cache.length : Int) ≥ s.max_limit
      · cases hm : pymin s.usage with
        | none => rw [wrapper_miss_full_empty r hc hcap hm]
        | some lu => rw [wrapper_miss_evict r hc hcap hm]
      · rw [wrapper_miss_room r hc hcap]

/-! ### Invariant preservation -/

theorem keysOK_step {s : LFU K V} (k : K) (fres : Except E V)
    (h : KeysOK s) : KeysOK ((wrapper s k fres).2.1) := by
  obtain ⟨hkeys, hnd⟩ := h
  cases hc : dlookup s.cache k with
  | some v =>
    cases hu : dlookup s.usage k with
    | some u =>
      rw [wrapper_hit fres hc hu]
      exact ⟨by rw [map_fst_dset_of_mem _ (mem_of_dlookup_eq_some hu), hkeys], hnd⟩
    | none => rw [wrapper_hit_keyError fres hc hu]; exact ⟨hkeys, hnd⟩
  | none =>
    have hkc : k ∉ s.cache.map Prod.fst := (dlookup_eq_none_iff s.cache k).mp hc
    have hku : k ∉ s.usage.map Prod.fst := by rwa [hkeys] at hkc
    cases fres with
    | error e => rw [wrapper_miss_error e hc]; exact ⟨hkeys, hnd⟩
    | ok r =>
      by_cases hcap : (s.cache.length : Int) ≥ s.max_limit
      · cases hm : pymin s.usage with
        | none => rw [wrapper_miss_full_empty r hc hcap hm]; exact ⟨hkeys, hnd⟩
        | some lu =>
          rw [wrapper_miss_evict r hc hcap hm]
          have hkc' : k ∉ (dpop s.cache lu.1).map Prod.fst := by
            rw [map_fst_dpop]
            exact fun hmem => hkc (List.mem_of_mem_erase hmem)
          have hku' : k ∉ (dpop s.usage lu.1).map Prod.fst := by
            rw [map_fst_dpop]
            exact fun hmem => hku (List.mem_of_mem_erase hmem)
          constructor
          · rw [map_fst_dset_of_not_mem _ hkc', map_fst_dset_of_not_mem _ hku',
              map_fst_dpop, map_fst_dpop, hkeys]
          · rw [map_fst_dset_of_not_mem _ hkc', map_fst_dpop]
            have h1 : ((s.cache.map Prod.fst).erase lu.1).Nodup := hnd.erase lu.1
            have h2 : k ∉ (s.cache.map Prod.fst).erase lu.1 :=
              fun hmem => hkc (List.mem_of_mem_erase hmem)
            simp [List.nodup_append, h1, h2]
      · rw [wrapper_miss_room r hc hcap]
        constructor
        · rw [map_fst_dset_of_not_mem _ hkc, map_fst_dset_of_not_mem _ hku, hkeys]
        · rw [map_fst_dset_of_not_mem _ hkc]
          simp [List.nodup_append, hnd, hkc]

theorem size_step {s : LFU K V} (k : K) (fres : Except E V)
    (h : KeysOK s) (hlen : (s.cache.length : Int) ≤ s.max_limit) :
    (((wrapper s k fres).2.1).cache.length : Int) ≤ s.max_limit := by
  obtain ⟨hkeys, hnd⟩ := h
  cases hc : dlookup s.cache k with
  | some v =>
    cases hu : dlookup s.usage k with
    | some u => rw [wrapper_hit fres hc hu]; exact hlen
    | none => rw [wrapper_hit_keyError fres hc hu]; exact hlen
  | none =>
    have hkc : k ∉ s.cache.map Prod.fst := (dlookup_eq_none_iff s.cache k).mp hc
    cases fres with
    | error e => rw [wrapper_miss_error e hc]; exact hlen
    | ok r =>
      by_cases hcap : (s.cache.length : Int) ≥ s.max_limit
      · cases hm : pymin s.usage with
        | none => rw [wrapper_miss_full_empty r hc hcap hm]; exact hlen
        | some lu =>
          rw [wrapper_miss_evict r hc hcap hm]
          have hmem : lu.1 ∈ s.cache.map Prod.fst := by
            rw [hkeys]
            exact List.mem_map_of_mem Prod.fst (pymin_mem hm)
          have hkc' : k ∉ (dpop s.cache lu.1).map Prod.fst := by
            rw [map_fst_dpop]
            exact fun hmem2 => hkc (List.mem_of_mem_erase hmem2)
          have hlen1 : (dset (dpop s.cache lu.1) k r).length =
              (dpop s.cache lu.1).length + 1 := by
            have := map_fst_dset_of_not_mem (d := dpop s.cache lu.1) r hkc'
            have hl := congrArg List.length this
            simpa using hl
          have hlen2 : (dpop s.cache lu.1).length + 1 = s.cache.length := by
            have e1 := congrArg List.length (map_fst_dpop s.cache lu.1)
            rw [List.length_map, List.length_erase_of_mem hmem, List.length_map] at e1
            have hpos : 0 < s.cache.length := by
              have h2 := List.length_pos_of_mem hmem
              simpa using h2
            omega
          rw [hlen1, hlen2]
          exact hlen
      · rw [wrapper_miss_room r hc hcap]
        have hlen1 : (dset s.cache k r).length = s.cache.length + 1 := by
          have := map_fst_dset_of_not_mem (d := s.cache) r hkc
          have hl := congrArg List.length this
          simpa using hl
        rw [hlen1]
        push_cast
        omega

theorem keysOK_runCalls {s : LFU K V} (h : KeysOK s)
    (calls : List (K × Except E V)) : KeysOK (runCalls s calls) := by
  induction calls generalizing s with
  | nil => exact h
  | cons c rest ih => exact ih (keysOK_step c.1 c.2 h)

theorem runCalls_max_limit (s : LFU K V) (calls : List (K × Except E V)) :
    (runCalls s calls).max_limit = s.max_limit := by
  induction calls generalizing s with
  | nil => rfl
  | cons c rest ih =>
    unfold runCalls
    rw [ih, step_max_limit]

theorem size_runCalls {s : LFU K V} (h : KeysOK s)
    (hlen : (s.cache.length : Int) ≤ s.max_limit)
    (calls : List (K × Except E V)) :
    ((runCalls s calls).cache.length : Int) ≤ s.max_limit := by
  induction calls generalizing s with
  | nil => exact hlen
  | cons c rest ih =>
    unfold runCalls
    have h1 := keysOK_step c.1 c.2 h
    have h2 := size_step c.1 c.2 h hlen
    have h3 := step_max_limit s c.1 c.2
    rw [← h3] at h2
    have := ih h1 h2
    rwa [h3] at this

/-! ### Key canonicalization is keyword-order independent -/

/-- Two keyword dicts holding the same name/value pairs (in any supply
order, with the distinct names any Python call has) sort to the same item
list, so they build equal cache keys. -/
theorem makeKey_perm (args : List PyVal) {kw1 kw2 : List (String × PyVal)}
    (hperm : kw1.Perm kw2) (hnd : (kw1.map Prod.fst).Nodup) :
    makeKey args kw1 = makeKey args kw2 := by
  haveI htot : IsTotal (String × PyVal) (fun a b => a.1 ≤ b.1) :=
    ⟨fun a b => le_total a.1 b.1⟩
  haveI htr : IsTrans (String × PyVal) (fun a b => a.1 ≤ b.1) :=
    ⟨fun a b c h1 h2 => le_trans h1 h2⟩
  haveI hanti : IsAntisymm (String × PyVal) (fun a b => a.1 < b.1) :=
    ⟨fun a b h1 h2 => absurd h2 (lt_asymm h1)⟩
  have hp1 := List.perm_insertionSort (fun a b : String × PyVal => a.1 ≤ b.1) kw1
  have hp2 := List.perm_insertionSort (fun a b : String × PyVal => a.1 ≤ b.1) kw2
  have hs1 := List.sorted_insertionSort (fun a b : String × PyVal => a.1 ≤ b.1) kw1
  have hs2 := List.sorted_insertionSort (fun a b : String × PyVal => a.1 ≤ b.1) kw2
  have hnd1 : ((List.insertionSort (fun a b => a.1 ≤ b.1) kw1).map Prod.fst).Nodup :=
    ((hp1.map Prod.fst).nodup_iff).mpr hnd
  have hnd2 : ((List.insertionSort (fun a b => a.1 ≤ b.1) kw2).map Prod.fst).Nodup :=
    ((hp2.map Prod.fst).nodup_iff).mpr (((hperm.map Prod.fst).nodup_iff).mp hnd)
  have hlt1 : List.Sorted (fun a b : String × PyVal => a.1 < b.1)
      (List.insertionSort (fun a b => a.1 ≤ b.1) kw1) :=
    (hs1.and (List.pairwise_map.mp hnd1)).imp fun h => lt_of_le_of_ne h.1 h.2
  have hlt2 : List.Sorted (fun a b : String × PyVal => a.1 < b.1)
      (List.insertionSort (fun a b => a.1 ≤ b.1) kw2) :=
    (hs2.and (List.pairwise_map.mp hnd2)).imp fun h => lt_of_le_of_ne h.1 h.2
  have hsorteq : List.insertionSort (fun a b : String × PyVal => a.1 ≤ b.1) kw1 =
      List.insertionSort (fun a b => a.1 ≤ b.1) kw2 :=
    List.eq_of_perm_of_sorted (hp1.trans (hperm.trans hp2.symm)) hlt1 hlt2
  unfold makeKey
  rw [hsorteq]

/-! ### Residency after a successful miss -/

/-- A completed miss installs the computed value with frequency 1: the
computation was invoked, and afterwards the key is resident with the
returned value and counter 1. -/
theorem resident_after_miss_ok {s : LFU K V} {k : K} {v : V} {s1 : LFU K V}
    {b : Bool} (hc : dlookup s.cache k = none)
    (h1 : wrapper s k (Except.ok v : Except E V) = (.ok v, s1, b)) :
    b = true ∧ dlookup s1.cache k = some v ∧ dlookup s1.usage k = some 1 := by
  by_cases hcap : (s.cache.length : Int) ≥ s.max_limit
  · cases hm : pymin s.usage with
    | none =>
      rw [wrapper_miss_full_empty v hc hcap hm] at h1
      exact absurd (congrArg (fun t => t.1) h1) (by simp)
    | some lu =>
      rw [wrapper_miss_evict v hc hcap hm] at h1
      have hs1 : s1 = ⟨s.max_limit, dset (dpop s.cache lu.1) k v,
          dset (dpop s.usage lu.1) k 1⟩ := by
        have h3 := congrArg (fun t => t.2.1) h1
        simpa using h3.symm
      have hb : b = true := by
        have h3 := congrArg (fun t => t.2.2) h1
        simpa using h3.symm
      subst hb
      rw [hs1]
      exact ⟨rfl, dlookup_dset_self _ k v, dlookup_dset_self _ k 1⟩
  · rw [wrapper_miss_room v hc hcap] at h1
    have hs1 : s1 = ⟨s.max_limit, dset s.cache k v, dset s.usage k 1⟩ := by
      have h3 := congrArg (fun t => t.2.1) h1
      simpa using h3.symm
    have hb : b = true := by
      have h3 := congrArg (fun t => t.2.2) h1
      simpa using h3.symm
    subst hb
    rw [hs1]
    exact ⟨rfl, dlookup_dset_self _ k v, dlookup_dset_self _ k 1⟩

/-- Inversion of a completed miss: if a miss returns `.ok v`, the
computation was invoked and produced `v`, and afterwards `k` is resident
with value `v` and frequency 1. -/
theorem miss_ok_inversion {s : LFU K V} {k : K} {v : V} {s1 : LFU K V}
    {b : Bool} {fres : Except E V} (hc : dlookup s.cache k = none)
    (h1 : wrapper s k fres = (.ok v, s1, b)) :
    fres = Except.ok v ∧ b = true ∧
      dlookup s1.cache k = some v ∧ dlookup s1.usage k = some 1 := by
  cases fres with
  | error e =>
    rw [wrapper_miss_error e hc] at h1
    exact absurd (congrArg (fun t => t.1) h1) (by simp)
  | ok r =>
    have hrv : r = v := by
      by_cases hcap : (s.cache.length : Int) ≥ s.max_limit
      · cases hm : pymin s.usage with
        | none =>
          rw [wrapper_miss_full_empty r hc hcap hm] at h1
          exact absurd (congrArg (fun t => t.1) h1) (by simp)
        | some lu =>
          rw [wrapper_miss_evict r hc hcap hm] at h1
          have h2 := congrArg (fun t => t.1) h1
          simpa using h2
      · rw [wrapper_miss_room r hc hcap] at h1
        have h2 := congrArg (fun t => t.1) h1
        simpa using h2
    subst hrv
    obtain ⟨hb, h2, h3⟩ := resident_after_miss_ok hc h1
    exact ⟨rfl, hb, h2, h3⟩

/-! ### The claims -/

/-- C1: Eviction victim selection.  On a miss while the store is at
capacity (with a nonempty frequency dict), the call completes by evicting
the key returned by `min(usage, key=usage.get)`, and that key is resident,
carries the strictly smallest frequency counter (no resident frequency is
below it), and is the earliest in insertion order among the tied set
(every key before it in the dict has a strictly larger counter); hits
update counters in place and never reorder keys; in particular, with
`max_limit = 2` and calls `f(1), f(2), f(3)` with no intervening hits,
key 1 is evicted, leaving keys 2 and 3 resident. -/
theorem C1_eviction_victim {s : LFU K V} {k : K} (v : V)
    (hmiss : dlookup s.cache k = none)
    (hcap : (s.cache.length : Int) ≥ s.max_limit)
    (hne : s.usage ≠ []) :
    (∃ lu : K × Nat, ∃ l₁ l₂ : List (K × Nat),
      pymin s.usage = some lu ∧
      s.usage = l₁ ++ lu :: l₂ ∧
      (∀ p ∈ s.usage, lu.2 ≤ p.2) ∧
      (∀ p ∈ l₁, lu.2 < p.2) ∧
      wrapper s k (Except.ok v : Except E V) =
        (.ok v, ⟨s.max_limit, dset (dpop s.cache lu.1) k v,
          dset (dpop s.usage lu.1) k 1⟩, true)) ∧
    (∀ (d : List (K × Nat)) (a : K) (n : Nat), a ∈ d.map Prod.fst →
      (dset d a n).map Prod.fst = d.map Prod.fst) ∧
    (runCalls (⟨2, [], []⟩ : LFU Nat Nat)
        [((1 : Nat), (Except.ok 10 : Except Unit Nat)), (2, Except.ok 20),
          (3, Except.ok 30)]).cache.map Prod.fst = [2, 3] := by
  refine ⟨?_, fun d a n h => map_fst_dset_of_mem n h, by decide⟩
  obtain ⟨lu, l₁, l₂, hm, heq, hmin, hpre⟩ := pymin_spec s.usage hne
  exact ⟨lu, l₁, l₂, hm, heq, hmin, hpre, wrapper_miss_evict v hmiss hcap hm⟩

theorem C1_witness :
    wrapper (⟨1, [(5, 100)], [(5, 1)]⟩ : LFU Nat Nat) 7
        (Except.ok 9 : Except Unit Nat) =
      (.ok 9, ⟨1, [(7, 9)], [(7, 1)]⟩, true) := by
  obtain ⟨⟨lu, l₁, l₂, hm, heq, hmin, hpre, hw⟩, -, -⟩ :=
    C1_eviction_victim (s := ⟨1, [(5, 100)], [(5, 1)]⟩) (k := 7) (E := Unit) 9
      (by decide) (by decide) (by decide)
  have hlu : lu = (5, 1) := by
    simpa [pymin, pyminGo] using hm.symm
  rw [hlu] at hw
  simpa [dpop, dset] using hw

/-- C2: Hit avoids recomputation.  A first call on a non-resident key that
completes with value `v` does invoke the wrapped computation (flag `true`)
and leaves `k` resident with value `v` and frequency 1; from any state in
which `k` is still resident with value `v` (no intervening eviction of that
key), a call with the same canonical key returns the stored `v` with the
invoked flag `false`, whatever the computation (`g`) would have produced —
so the computation runs exactly once across the two calls. -/
theorem C2_hit_avoids_recomputation {s : LFU K V} {k : K} {v : V}
    {s1 : LFU K V} {b : Bool} (hmiss : dlookup s.cache k = none)
    (h1 : wrapper s k (Except.ok v : Except E V) = (.ok v, s1, b)) :
    b = true ∧ dlookup s1.cache k = some v ∧ dlookup s1.usage k = some 1 ∧
    ∀ (t : LFU K V) (u : Nat) (g : Except E V),
      dlookup t.cache k = some v → dlookup t.usage k = some u →
      wrapper t k g =
        (.ok v, ⟨t.max_limit, t.cache, dset t.usage k (u + 1)⟩, false) := by
  obtain ⟨hb, h2, h3⟩ := resident_after_miss_ok hmiss h1
  exact ⟨hb, h2, h3, fun t u g hc hu => wrapper_hit g hc hu⟩

theorem C2_witness :
    wrapper (⟨2, [(1, 42)], [(1, 1)]⟩ : LFU Nat Nat) 1
        (Except.error () : Except Unit Nat) =
      (.ok 42, ⟨2, [(1, 42)], [(1, 2)]⟩, false) :=
  (C2_hit_avoids_recomputation (by decide)
    (by decide : wrapper (⟨2, [], []⟩ : LFU Nat Nat) 1
        (Except.ok 42 : Except Unit Nat) =
      (.ok 42, ⟨2, [(1, 42)], [(1, 1)]⟩, true))).2.2.2
    ⟨2, [(1, 42)], [(1, 1)]⟩ 1 (Except.error ()) (by decide) (by decide)

/-- C3: Capacity invariant I1.  For every cache built with a positive
`max_limit` and every finite sequence of calls starting from the empty
store, at most `max_limit` keys are resident afterwards (and since every
prefix of a call sequence is itself a call sequence, the bound holds after
each completed call). -/
theorem C3_capacity_invariant (m : Int) (hm : 0 < m)
    (calls : List (K × Except E V)) :
    ((runCalls (⟨m, [], []⟩ : LFU K V) calls).cache.length : Int) ≤ m := by
  have h0 : KeysOK (⟨m, [], []⟩ : LFU K V) := ⟨rfl, List.nodup_nil⟩
  have hlen : (((⟨m, [], []⟩ : LFU K V).cache.length : Int)) ≤
      (⟨m, [], []⟩ : LFU K V).max_limit := by
    simp
    omega
  simpa using size_runCalls h0 hlen calls

theorem C3_witness :
    ((runCalls (⟨1, [], []⟩ : LFU Nat Nat)
      [((1 : Nat), (Except.ok 10 : Except Unit Nat)), (2, Except.ok 20),
        (1, Except.ok 10)]).cache.length : Int) ≤ 1 :=
  C3_capacity_invariant 1 (by decide)
    [((1 : Nat), (Except.ok 10 : Except Unit Nat)), (2, Except.ok 20),
      (1, Except.ok 10)]

/-- C4: Keyword order independence.  Two calls supplying the same
positional values in the same order and the same keyword name/value pairs
in any supply order (keyword names are distinct in a Python call) build
equal cache keys, and therefore the whole call behaves identically — the
same cache entry is addressed. -/
theorem C4_keyword_order_independence (args : List PyVal)
    {kw1 kw2 : List (String × PyVal)} (hperm : kw1.Perm kw2)
    (hnd : (kw1.map Prod.fst).Nodup) :
    makeKey args kw1 = makeKey args kw2 ∧
    ∀ (s : LFU (List PyVal × List (String × PyVal)) V) (fres : Except E V),
      wrapperCall s args kw1 fres = wrapperCall s args kw2 fres := by
  have hk := makeKey_perm args hperm hnd
  refine ⟨hk, fun s fres => ?_⟩
  unfold wrapperCall
  rw [hk]

theorem C4_witness :
    makeKey [] [("x", PyVal.int 1), ("y", PyVal.int 2)] =
      makeKey [] [("y", PyVal.int 2), ("x", PyVal.int 1)] :=
  (C4_keyword_order_independence (V := Nat) (E := Unit) []
    (by decide) (by decide)).1

/-- C5: Frequency accounting I3.  (a) A key made resident by a completed
miss has frequency counter exactly 1; (b) a completed hit on a resident
key with counter `u` returns the stored value and sets the counter to
`u + 1` (and touches nothing else); (c) a call on a different key `a ≠ k`
that does not evict `k` leaves the frequency counter of `k` unchanged —
the side condition guards only the branch where an eviction actually
happens (a completed miss while at capacity), and there requires the
victim to differ from `k`; hits on other keys and below-capacity inserts
are covered unconditionally, even while `k` is the current least-used
key. -/
theorem C5_frequency_accounting {s : LFU K V} (k a : K) :
    (∀ (v : V) (s1 : LFU K V) (b : Bool) (fres : Except E V),
      dlookup s.cache k = none → wrapper s k fres = (.ok v, s1, b) →
      dlookup s1.usage k = some 1) ∧
    (∀ (v : V) (u : Nat) (g : Except E V),
      dlookup s.cache k = some v → dlookup s.usage k = some u →
      wrapper s k g =
        (.ok v, ⟨s.max_limit, s.cache, dset s.usage k (u + 1)⟩, false)) ∧
    (∀ fres : Except E V, a ≠ k →
      (∀ (r : V) (lu : K × Nat), fres = Except.ok r →
        dlookup s.cache a = none → (s.cache.length : Int) ≥ s.max_limit →
        pymin s.usage = some lu → lu.1 ≠ k) →
      dlookup ((wrapper s a fres).2.1).usage k = dlookup s.usage k) := by
  refine ⟨?_, ?_, ?_⟩
  · intro v s1 b fres hmiss h1
    exact (miss_ok_inversion hmiss h1).2.2.2
  · intro v u g hc hu
    exact wrapper_hit g hc hu
  · intro fres hak hvict
    cases hc : dlookup s.cache a with
    | some v =>
      cases hu : dlookup s.usage a with
      | some u =>
        rw [wrapper_hit fres hc hu]
        exact dlookup_dset_ne _ _ (Ne.symm hak)
      | none => rw [wrapper_hit_keyError fres hc hu]
    | none =>
      cases fres with
      | error e => rw [wrapper_miss_error e hc]
      | ok r =>
        by_cases hcap : (s.cache.length : Int) ≥ s.max_limit
        · cases hm : pymin s.usage with
          | none => rw [wrapper_miss_full_empty r hc hcap hm]
          | some lu =>
            rw [wrapper_miss_evict r hc hcap hm]
            have h1 : k ≠ lu.1 :=
              fun h => (hvict r lu rfl hc hcap hm) (h.symm)
            rw [show (⟨s.max_limit, dset (dpop s.cache lu.1) a r,
                dset (dpop s.usage lu.1) a 1⟩ : LFU K V).usage =
                dset (dpop s.usage lu.1) a 1 from rfl,
              dlookup_dset_ne _ _ (Ne.symm hak), dlookup_dpop_ne _ h1]
        · rw [wrapper_miss_room r hc hcap]
          exact dlookup_dset_ne _ _ (Ne.symm hak)

theorem C5_witness :
    wrapper (⟨2, [(1, 10)], [(1, 3)]⟩ : LFU Nat Nat) 1
        (Except.ok 99 : Except Unit Nat) =
      (.ok 10, ⟨2, [(1, 10)], [(1, 4)]⟩, false) ∧
    dlookup ((wrapper (⟨2, [(1, 10), (2, 20)], [(1, 1), (2, 5)]⟩ : LFU Nat Nat)
        2 (Except.ok 99 : Except Unit Nat)).2.1).usage 1 =
      dlookup [(1, 1), (2, 5)] 1 :=
  ⟨(C5_frequency_accounting (s := (⟨2, [(1, 10)], [(1, 3)]⟩ : LFU Nat Nat))
      1 2).2.1 10 3 (Except.ok 99) (by decide) (by decide),
    (C5_frequency_accounting
      (s := (⟨2, [(1, 10), (2, 20)], [(1, 1), (2, 5)]⟩ : LFU Nat Nat))
      1 2).2.2 (Except.ok 99) (by decide)
      (fun r lu h1 h2 h3 h4 => absurd h2 (by decide))⟩

/-- C6: Bijection invariant I2.  After every call sequence from the empty
store — calls that complete as well as calls that fail — the value dict
and the frequency dict hold exactly the same keys (even in the same
order), and no key occurs twice in either, so every resident key has
exactly one frequency counter and every counter belongs to exactly one
resident key. -/
theorem C6_bijection_invariant (m : Int) (calls : List (K × Except E V)) :
    (runCalls (⟨m, [], []⟩ : LFU K V) calls).cache.map Prod.fst =
      (runCalls (⟨m, [], []⟩ : LFU K V) calls).usage.map Prod.fst ∧
    ((runCalls (⟨m, [], []⟩ : LFU K V) calls).cache.map Prod.fst).Nodup ∧
    ((runCalls (⟨m, [], []⟩ : LFU K V) calls).usage.map Prod.fst).Nodup := by
  have h := keysOK_runCalls (s := (⟨m, [], []⟩ : LFU K V)) ⟨rfl, List.nodup_nil⟩
    (E := E) calls
  exact ⟨h.1, h.2, h.1 ▸ h.2⟩

/-- C7: Computation error atomicity.  When the wrapped computation raises
(`fres = .error e`, which only happens on a miss, since a hit never invokes
it), the call raises the very same error and the state — both dicts — is
exactly as before: no entry is added and no eviction happens. -/
theorem C7_error_atomicity {s : LFU K V} {k : K} (e : E)
    (hmiss : dlookup s.cache k = none) :
    wrapper s k (Except.error e : Except E V) = (.compError e, s, true) :=
  wrapper_miss_error e hmiss

theorem C7_witness :
    wrapper (⟨2, [(1, 10)], [(1, 1)]⟩ : LFU Nat Nat) 2
        (Except.error () : Except Unit Nat) =
      (.compError (), ⟨2, [(1, 10)], [(1, 1)]⟩, true) :=
  C7_error_atomicity () (by decide)

/-- C8: Unkeyable arguments.  When the built key is unhashable, hashing it
at `key in cache` raises `TypeError` before the wrapped computation is
invoked (flag `false`, `fres` unused), and the cache state is returned
unchanged.  (The spec names this failure `InvalidKeyError`; in the source
it is the `TypeError` Python raises when hashing the key.) -/
theorem C8_unkeyable_arguments {s : LFU (List PyVal × List (String × PyVal)) V}
    (args : List PyVal) (kwargs : List (String × PyVal)) (fres : Except E V)
    (h : keyHashable (makeKey args kwargs) = false) :
    wrapperCall s args kwargs fres = (.typeError, s, false) := by
  unfold wrapperCall
  simp [h]

theorem C8_witness :
    wrapperCall (⟨1, [], []⟩ : LFU (List PyVal × List (String × PyVal)) Nat)
        [PyVal.list []] [] (Except.ok 0 : Except Unit Nat) =
      (.typeError, ⟨1, [], []⟩, false) :=
  C8_unkeyable_arguments (s := ⟨1, [], []⟩) [PyVal.list []] []
    (Except.ok 0 : Except Unit Nat) (by rfl)

/-- C9 (counterexample): the claim says construction with `max_limit = 0`
fails with `InvalidConfigurationError`; in the source `lfu_cache` performs
no validation, so construction with `max_limit = 0` does not produce that
error. -/
theorem C9_counterexample :
    lfu_cache Nat Nat 0 ≠ Except.error ConfigError.invalidConfiguration := by
  simp [lfu_cache]

/-- C9 (amended): constructing with `max_limit = 0` or negative succeeds —
no validation happens and a cache instance is produced; the degenerate
capacity only surfaces later, as the `ValueError` from `min` over the
empty frequency dict on the first completed miss. -/
theorem C9_amended_no_validation (m : Int) (hm : m ≤ 0) :
    lfu_cache K V m = Except.ok ⟨m, [], []⟩ ∧
    ∀ (k : K) (v : V),
      (wrapper (⟨m, [], []⟩ : LFU K V) k (Except.ok v : Except E V)).1 =
        .valueError := by
  have hcap : (((⟨m, [], []⟩ : LFU K V).cache.length : Int)) ≥
      (⟨m, [], []⟩ : LFU K V).max_limit := by
    simpa using hm
  exact ⟨rfl, fun k v => by rw [wrapper_miss_full_empty v (by rfl) hcap (by rfl)]⟩

theorem C9_amended_witness :
    lfu_cache Nat Nat 0 = Except.ok ⟨0, [], []⟩ :=
  (C9_amended_no_validation (K := Nat) (V := Nat) (E := Unit) 0 le_rfl).1

/-- C10: Degenerate capacity behavior.  With `max_limit ≤ 0`, construction
itself succeeds; every call then misses (the store is empty), invokes the
wrapped computation, and — when the computation completes — raises the
`ValueError` from `min` over the empty frequency dict; no entry is ever
stored, so both dicts stay empty forever. -/
theorem C10_degenerate_capacity (m : Int) (hm : m ≤ 0) :
    lfu_cache K V m = Except.ok ⟨m, [], []⟩ ∧
    (∀ (k : K) (v : V),
      wrapper (⟨m, [], []⟩ : LFU K V) k (Except.ok v : Except E V) =
        (.valueError, ⟨m, [], []⟩, true)) ∧
    (∀ calls : List (K × Except E V),
      runCalls (⟨m, [], []⟩ : LFU K V) calls = ⟨m, [], []⟩) := by
  have hcap : (((⟨m, [], []⟩ : LFU K V).cache.length : Int)) ≥
      (⟨m, [], []⟩ : LFU K V).max_limit := by
    simpa using hm
  have hstep : ∀ (k : K) (fres : Except E V),
      (wrapper (⟨m, [], []⟩ : LFU K V) k fres).2.1 = ⟨m, [], []⟩ := by
    intro k fres
    cases fres with
    | error e => rw [wrapper_miss_error e (by rfl)]
    | ok r => rw [wrapper_miss_full_empty r (by rfl) hcap (by rfl)]
  refine ⟨rfl, fun k v => wrapper_miss_full_empty v (by rfl) hcap (by rfl),
    fun calls => ?_⟩
  induction calls with
  | nil => rfl
  | cons c rest ih =>
    unfold runCalls
    rw [hstep c.1 c.2]
    exact ih

theorem C10_witness :
    wrapper (⟨0, [], []⟩ : LFU Nat Nat) 1 (Except.ok 5 : Except Unit Nat) =
      (.valueError, ⟨0, [], []⟩, true) :=
  (C10_degenerate_capacity (K := Nat) (V := Nat) (E := Unit) 0 le_rfl).2.1 1 5

end CachingLFU
